import Mathlib

/-!
# Verification of the card generator (`generate_cards.py`)

A shallow embedding of the pure core of the card-generation program:
identifier (EAN-13) normalization, name (FIO) normalization, configuration
validation, barcode-image sizing, card layout geometry and the A4
sheet-packing loop.

Modelling conventions:
* Python strings are modelled as `List Nat` of Unicode code points
  (`strLit` converts a Lean string literal).  The character-level helpers
  (`upCode`, `lowCode`, `isFioCode`, …) are faithful on the character
  ranges the program's regular expressions and comparisons actually touch
  (ASCII plus the Cyrillic block used by the source).
* Python floats are modelled as exact rationals `ℚ`; `round` is Python's
  round-half-to-even (`pyRound`), `int(...)` is truncation toward zero
  (`pyTruncate`), `//` on ints is floor division (`Int.fdiv`).
* Fallible functions return `Except` with structured error values carrying
  exactly the data the corresponding Python error message interpolates.
-/

namespace Cards

/-- Code points of a string literal (model of a Python `str` value). -/
def strLit (s : String) : List Nat := s.toList.map Char.toNat

/-- Python whitespace (`str.split` / `str.strip` default separators),
restricted to the ASCII whitespace characters. -/
def isSpaceCode (n : Nat) : Bool :=
  decide (n = 32 ∨ n = 9 ∨ n = 10 ∨ n = 13 ∨ n = 11 ∨ n = 12)

/-- The character class `[A-Za-zА-Яа-яЁё\.-]` of the token regex from
`parse_fio` (`re.findall`): Latin letters, Cyrillic А-Я/а-я, Ё/ё,
period and hyphen. -/
def isFioCode (n : Nat) : Bool :=
  decide ((65 ≤ n ∧ n ≤ 90) ∨ (97 ≤ n ∧ n ≤ 122) ∨ (1040 ≤ n ∧ n ≤ 1103) ∨
    n = 1025 ∨ n = 1105 ∨ n = 46 ∨ n = 45)

/-- ASCII decimal digit (the `\d` class of `re.sub(r"\D", "", …)`,
modelled on ASCII digits). -/
def isDigitCode (n : Nat) : Bool := decide (48 ≤ n ∧ n ≤ 57)

/-- Python `str.upper` on one code point, faithful on ASCII letters and the
Cyrillic range used by the program (other code points are left unchanged). -/
def upCode (n : Nat) : Nat :=
  if 97 ≤ n ∧ n ≤ 122 then n - 32
  else if 1072 ≤ n ∧ n ≤ 1103 then n - 32
  else if n = 1105 then 1025
  else n

/-- Python `str.lower` on one code point, faithful on ASCII letters and the
Cyrillic range used by the program. -/
def lowCode (n : Nat) : Nat :=
  if 65 ≤ n ∧ n ≤ 90 then n + 32
  else if 1040 ≤ n ∧ n ≤ 1071 then n + 32
  else if n = 1025 then 1105
  else n

/-- The `str.replace("ё", "Ё")` step of `parse_fio`, per code point. -/
def replaceYo (n : Nat) : Nat := if n = 1105 then 1025 else n

/-- Maximal runs of characters satisfying `p`; characters outside `p` are
separators and are dropped.  This is both `re.findall` for a character-class
regex (with `p := isFioCode`) and `str.split()` (with `p := not-whitespace`). -/
def runsOf (p : Nat → Bool) : List Nat → List (List Nat)
  | [] => []
  | c :: rest =>
    let ts := runsOf p rest
    if p c then
      match rest with
      | [] => [[c]]
      | d :: _ => if p d then (c :: ts.headD []) :: ts.tail else [c] :: ts
    else ts

/-- `sep.join(ws)` for a one-character separator. -/
def joinWith (sep : Nat) : List (List Nat) → List Nat
  | [] => []
  | [w] => w
  | w :: x :: ws => w ++ sep :: joinWith sep (x :: ws)

/-- Python `str.strip()` (default whitespace stripping at both ends). -/
def pyStrip (l : List Nat) : List Nat :=
  ((l.dropWhile isSpaceCode).reverse.dropWhile isSpaceCode).reverse

/-- Python `str.strip(chars)` for an explicit character set. -/
def stripChars (cs : List Nat) (l : List Nat) : List Nat :=
  ((l.dropWhile (cs.contains ·)).reverse.dropWhile (cs.contains ·)).reverse

/-- Errors raised by `parse_fio`. -/
inductive FioError where
  /-- «Пустое значение ФИО» -/
  | emptyName : FioError
  /-- «Не удалось распознать ФИО» -/
  | unrecognizedName : FioError
deriving DecidableEq, Repr

/-- `parse_fio`: canonicalize a free-form name to «Фамилия И.О.» form.
Mirrors the source line by line: collapse whitespace, tokenize with the
letter/period/hyphen regex, uppercase the first token as the surname
(after `ё → Ё`), then either keep pre-abbreviated initials (any remaining
token containing a period), or build initials from the first letters of up
to two remaining tokens. -/
def parseFio (raw : Option (List Nat)) : Except FioError (List Nat) :=
  match raw with
  | none => .error .emptyName
  | some r =>
    let cleaned := joinWith 32 (runsOf (fun c => !isSpaceCode c) r)
    if cleaned = [] then .error .emptyName
    else
      match runsOf isFioCode cleaned with
      | [] => .error .unrecognizedName
      | t0 :: rest =>
        let surname := (t0.map replaceYo).map upCode
        if rest.any (fun t => t.contains 46) then
          .ok (pyStrip (surname ++ 32 :: joinWith 32 (rest.map (List.map upCode))))
        else
          let parts := rest.filter (fun t => !(stripChars [46, 45] t).isEmpty)
          if parts.isEmpty then .ok surname
          else
            .ok (pyStrip (surname ++ 32 ::
              (joinWith 46 ((parts.take 2).map (fun p => [upCode (p.headD 0)])) ++ [46])))

/-- Sums of the digits at even and at odd (0-indexed) positions:
`(sum(digits[::2]), sum(digits[1::2]))`. -/
def altSums : List Nat → Nat × Nat
  | [] => (0, 0)
  | a :: rest =>
    let p := altSums rest
    (a + p.2, p.1)

/-- The EAN-13 weighted-modulo-10 checksum of a list of digit values:
`(10 - ((evens + 3 * odds) % 10)) % 10`. -/
def checkDigitVal (ds : List Nat) : Nat :=
  let p := altSums ds
  (10 - (p.1 + 3 * p.2) % 10) % 10

/-- Errors raised by `normalize_barcode` / `compute_ean13_check_digit`.
Each constructor carries exactly the data the Python message interpolates. -/
inductive BarcodeError where
  /-- «Пустой штрихкод в строке {row}» -/
  | emptyBarcode (row : Nat) : BarcodeError
  /-- «Для контрольной цифры нужна 12-значная строка» -/
  | checkDigitNeeds12 : BarcodeError
  /-- «Неверная контрольная цифра в строке {row}: ожидается {expected}» —
  `expected` is the code point of the expected check digit. -/
  | badCheckDigit (row : Nat) (expected : Nat) : BarcodeError
  /-- «Некорректное количество цифр в строке {row}: найдено {found}» -/
  | badDigitCount (row : Nat) (found : Nat) : BarcodeError
deriving DecidableEq, Repr

/-- `compute_ean13_check_digit`: check digit (as a code point) of a
12-character digit string, with the source's length/digit guard. -/
def computeEan13CheckDigit (data12 : List Nat) : Except BarcodeError Nat :=
  if data12.length = 12 ∧ data12.all isDigitCode then
    .ok (48 + checkDigitVal (data12.map (· - 48)))
  else .error .checkDigitNeeds12

/-- `normalize_barcode` on textual input: strip the raw value, drop every
non-digit character, then append (12 digits), verify (13 digits) or reject
(any other count) the check digit.  (Numeric Excel cells are first rendered
by Python as a digit string, so the textual branch is the one modelled.) -/
def normalizeBarcode (value : Option (List Nat)) (rowIndex : Nat) :
    Except BarcodeError (List Nat) :=
  match value with
  | none => .error (.emptyBarcode rowIndex)
  | some v =>
    let raw := pyStrip v
    let digitsOnly := raw.filter isDigitCode
    if digitsOnly.length = 12 then
      match computeEan13CheckDigit digitsOnly with
      | .ok c => .ok (digitsOnly ++ [c])
      | .error e => .error e
    else if digitsOnly.length = 13 then
      match computeEan13CheckDigit (digitsOnly.take 12) with
      | .ok expected =>
        if expected ≠ digitsOnly.getLastD 0 then
          .error (.badCheckDigit rowIndex expected)
        else .ok digitsOnly
      | .error e => .error e
    else .error (.badDigitCount rowIndex digitsOnly.length)

/-! ## Unit conversion and Python numeric primitives -/

/-- `MM_IN_INCH = 25.4`. -/
def MM_IN_INCH : ℚ := 127 / 5

/-- `PT_IN_INCH = 72`. -/
def PT_IN_INCH : ℚ := 72

/-- `DPI = 300`. -/
def DPI : ℚ := 300

/-- `A4_WIDTH_MM = 210`. -/
def A4_WIDTH_MM : ℚ := 210

/-- `A4_HEIGHT_MM = 297`. -/
def A4_HEIGHT_MM : ℚ := 297

/-- Python `round` (banker's rounding, ties to even) on an exact rational. -/
def pyRound (q : ℚ) : Int :=
  let f := ⌊q⌋
  let r := q - (f : ℚ)
  if r < 1 / 2 then f
  else if 1 / 2 < r then f + 1
  else if f % 2 = 0 then f else f + 1

/-- Python `int(...)` on a real value: truncation toward zero. -/
def pyTruncate (q : ℚ) : Int := if 0 ≤ q then ⌊q⌋ else -⌊-q⌋

/-- `mm_to_points`: millimetres to ReportLab points. -/
def mmToPoints (mmValue : ℚ) : ℚ := mmValue / MM_IN_INCH * PT_IN_INCH

/-- `mm_to_px`: millimetres to Pillow pixels at the fixed `DPI`,
`int(round(mm / 25.4 * dpi))`. -/
def mmToPx (mmValue : ℚ) : Int := pyRound (mmValue / MM_IN_INCH * DPI)

/-! ## Configuration model -/

/-- The `Config` dataclass with its field defaults. -/
structure Config where
  card_width_mm : ℚ := 35
  card_height_mm : ℚ := 15
  card_border_thickness_mm : ℚ := 1 / 5
  font_path : String := "ArialNarrow.ttf"
  font_size_pt : ℚ := 7
  text_orientation : Option (List Nat) := some (strLit "horizontal")
  text_top_offset_mm : ℚ := 2
  barcode_width_mm : ℚ := 26
  barcode_height_scale_percent : ℚ := 100
  barcode_top_offset_percent : Option ℚ := none
  barcode_right_offset_mm : ℚ := 6
  cards_per_row : Int := 5
  gap_mm : ℚ := 1
  top_margin_mm : ℚ := 12
  export_individual_cards : Bool := true
deriving DecidableEq, Repr

/-- `DEFAULT_CONFIG = Config()`. -/
def DEFAULT_CONFIG : Config := {}

/-- Hard violations collected by `validate_config`; each constructor carries
the data the corresponding Russian message interpolates. -/
inductive CfgError where
  /-- «Параметр {name} должен быть положительным, получено {value}» -/
  | notPositive (name : String) (value : ℚ) : CfgError
  /-- «Параметр {name} должен быть в диапазоне (0..100], получено {value}» -/
  | percentOutOfRange (name : String) (value : ℚ) : CfgError
  /-- «cards_per_row должен быть не меньше 1» -/
  | cardsPerRowTooSmall : CfgError
deriving DecidableEq, Repr

/-- Soft warnings logged by `validate_config`. -/
inductive CfgWarning where
  /-- «Неизвестная ориентация текста '{value}', используется horizontal» -/
  | unknownOrientation (value : Option (List Nat)) : CfgWarning
  /-- «Штрихкод может не поместиться по ширине карточки, …» -/
  | barcodeMayNotFit : CfgWarning
  /-- «Карточки в ряд выходят за пределы A4, будет перенос на новую строку» -/
  | rowOverflowsA4 : CfgWarning
deriving DecidableEq, Repr

/-- The inner `ensure_positive` helper of `validate_config`. -/
def ensurePositive (name : String) (value : ℚ) (allowZero : Bool := false) :
    List CfgError :=
  if (!allowZero && decide (value ≤ 0)) || (allowZero && decide (value < 0)) then
    [.notPositive name value]
  else []

/-- The inner `ensure_percent` helper of `validate_config`. -/
def ensurePercent (name : String) (value : ℚ) : List CfgError :=
  if value ≤ 0 ∨ 100 < value then [.percentOutOfRange name value] else []

/-- All hard violations found by `validate_config`, in source order. -/
def configErrors (c : Config) : List CfgError :=
  ensurePositive "card_width_mm" c.card_width_mm ++
  ensurePositive "card_height_mm" c.card_height_mm ++
  ensurePositive "card_border_thickness_mm" c.card_border_thickness_mm true ++
  ensurePositive "font_size_pt" c.font_size_pt ++
  ensurePositive "text_top_offset_mm" c.text_top_offset_mm true ++
  ensurePositive "gap_mm" c.gap_mm true ++
  ensurePositive "top_margin_mm" c.top_margin_mm true ++
  ensurePositive "barcode_width_mm" c.barcode_width_mm ++
  ensurePercent "barcode_height_scale_percent" c.barcode_height_scale_percent ++
  ensurePositive "barcode_right_offset_mm" c.barcode_right_offset_mm true ++
  (match c.barcode_top_offset_percent with
   | none => []
   | some v => ensurePercent "barcode_top_offset_percent" v) ++
  (if c.cards_per_row < 1 then [.cardsPerRowTooSmall] else [])

/-- The orientation normalization step: `(config.text_orientation or
"").lower()`, falling back to `"horizontal"` (with a warning) when the
lowercased value is neither `"horizontal"` nor `"vertical"`. -/
def orientationResult (c : Config) : List Nat × List CfgWarning :=
  let o := (c.text_orientation.getD []).map lowCode
  if o = strLit "horizontal" ∨ o = strLit "vertical" then (o, [])
  else (strLit "horizontal", [.unknownOrientation c.text_orientation])

/-- The soft warnings logged by `validate_config`, in source order. -/
def configWarnings (c : Config) : List CfgWarning :=
  (orientationResult c).2 ++
  (if c.card_width_mm < c.barcode_width_mm + c.barcode_right_offset_mm then
    [.barcodeMayNotFit] else []) ++
  (if A4_WIDTH_MM <
      (c.cards_per_row : ℚ) * c.card_width_mm + ((c.cards_per_row : ℚ) - 1) * c.gap_mm
   then [.rowOverflowsA4] else [])

/-- The configuration as mutated by `validate_config` (only
`text_orientation` is rewritten). -/
def applyValidation (c : Config) : Config :=
  { c with text_orientation := some (orientationResult c).1 }

/-- `validate_config`: raises one aggregated error when any hard violation
was found, otherwise returns the (orientation-normalized) configuration. -/
def validateConfig (c : Config) : Except (List CfgError) Config :=
  if configErrors c = [] then .ok (applyValidation c) else .error (configErrors c)

/-! ## Barcode image builder -/

/-- `make_barcode_image`, abstracted over the natural pixel size
`(naturalW, naturalH)` of the raster produced by the external EAN-13
encoder.  Returns the `(width, height)` of the resized image: width is
exactly `target_width_px`; height is the aspect-correct height times
`max(height_scale_percent, 1e-3) / 100`, rounded and floored at 1 pixel.
Fails («Ширина штрихкода должна быть положительной») when
`target_width_px ≤ 0`. -/
def makeBarcodeImage (naturalW naturalH : Nat) (targetWidthPx : Int)
    (heightScalePercent : ℚ) : Except String (Int × Int) :=
  if targetWidthPx ≤ 0 then .error "Ширина штрихкода должна быть положительной"
  else
    let scale : ℚ := (targetWidthPx : ℚ) / (naturalW : ℚ)
    let heightScale : ℚ := max heightScalePercent (1 / 1000) / 100
    let targetHeightPx : Int := max 1 (pyRound ((naturalH : ℚ) * scale * heightScale))
    .ok (targetWidthPx, targetHeightPx)

/-- Modelled from the spec: the output-height formula asserted by the spec's
scaling invariant, `round(natural_height * target_width_px / natural_width *
height_scale_percent / 100)` floored at 1 pixel. -/
def specBarcodeHeight (naturalW naturalH : Nat) (targetWidthPx : Int)
    (heightScalePercent : ℚ) : Int :=
  max 1 (pyRound ((naturalH : ℚ) * (targetWidthPx : ℚ) / (naturalW : ℚ) *
    heightScalePercent / 100))

/-! ## Card renderer geometry -/

/-- The pixel geometry computed by `draw_card`: canvas size, border stroke,
text position, and barcode size and position.  (The raster compositing
itself — blitting glyphs and bars — carries no further geometry.) -/
structure CardLayout where
  cardW : Int
  cardH : Int
  borderPx : Int
  textX : Int
  textY : Int
  textW : Int
  textH : Int
  barcodeW : Int
  barcodeH : Int
  barcodeX : Int
  barcodeY : Int
deriving DecidableEq, Repr

/-- `draw_card`, abstracted over the measured text box `(textW, textH)`
(external font engine) and the natural size of the encoder's barcode
raster.  Mirrors the source's arithmetic: `mm_to_px` conversions, border
stroke floored at 1 px, centred text floored at the border, and the barcode
placed right-aligned and either percent-offset or centred-below-text,
both coordinates floored at the border thickness. -/
def drawCard (c : Config) (textW textH : Int) (naturalW naturalH : Nat) :
    Except String CardLayout :=
  let cardW := mmToPx c.card_width_mm
  let cardH := mmToPx c.card_height_mm
  let borderPx := max 1 (mmToPx c.card_border_thickness_mm)
  let textY := mmToPx c.text_top_offset_mm
  let textX := max (Int.fdiv (cardW - textW) 2) borderPx
  match makeBarcodeImage naturalW naturalH (mmToPx c.barcode_width_mm)
      c.barcode_height_scale_percent with
  | .error e => .error e
  | .ok (bw, bh) =>
    let barcodeX := cardW - mmToPx c.barcode_right_offset_mm - bw
    let barcodeY : Int :=
      match c.barcode_top_offset_percent with
      | none => max (Int.fdiv (cardH - bh) 2) (textY + textH + 2)
      | some p => pyTruncate ((cardH : ℚ) * (p / 100))
    .ok { cardW := cardW, cardH := cardH, borderPx := borderPx,
          textX := textX, textY := textY, textW := textW, textH := textH,
          barcodeW := bw, barcodeH := bh,
          barcodeX := max borderPx barcodeX, barcodeY := max borderPx barcodeY }

/-! ## Sheet packer -/

/-- The mutable state of the placement loop in `layout_cards_on_a4`:
column counter, pen position, placements already drawn on the current page,
and the finalized pages. -/
structure LayoutState where
  col : Int
  x : ℚ
  y : ℚ
  current : List (Nat × ℚ × ℚ)
  pages : List (List (Nat × ℚ × ℚ))
deriving DecidableEq, Repr

/-- One iteration of the `for card_img in cards` loop: advance to a new row
after `cards_per_row` placements, start a new page when the pen's `y` has
fallen below 0, then record the placement and advance the pen. -/
def layoutStep (cardsPerRow : Int) (cardW cardH gap y0 : ℚ)
    (s : LayoutState) (i : Nat) : LayoutState :=
  let s1 := if cardsPerRow ≤ s.col then
      { s with col := 0, x := 0, y := s.y - (cardH + gap) } else s
  let s2 := if s1.y < 0 then
      { col := 0, x := 0, y := y0, current := [], pages := s1.pages ++ [s1.current] }
    else s1
  { s2 with current := s2.current ++ [(i, s2.x, s2.y)],
            col := s2.col + 1, x := s2.x + (cardW + gap) }

/-- The first-row pen height `page_h_pt - top_margin_pt - card_h_pt`. -/
def firstRowY (c : Config) : ℚ :=
  mmToPoints A4_HEIGHT_MM - mmToPoints c.top_margin_mm - mmToPoints c.card_height_mm

/-- `layout_cards_on_a4` for `n` cards: the pages of the produced PDF, each
page the list of `(card index, x, y)` placements drawn on it (all cards are
drawn at the same fixed width/height, so only positions are recorded).
`pdf.save()` finalizes the trailing page. -/
def layoutCardsOnA4 (c : Config) (n : Nat) : List (List (Nat × ℚ × ℚ)) :=
  let cardW := mmToPoints c.card_width_mm
  let cardH := mmToPoints c.card_height_mm
  let gap := mmToPoints c.gap_mm
  let final := (List.range n).foldl
    (layoutStep c.cards_per_row cardW cardH gap (firstRowY c))
    ⟨0, 0, firstRowY c, [], []⟩
  final.pages ++ [final.current]

/-! ### Row-major pagination as the spec describes it -/

/-- Split a list into consecutive chunks of size `k` (last chunk may be
short); `k = 0` yields no chunks. -/
def chunksOf (k : Nat) : List α → List (List α)
  | [] => []
  | x :: xs =>
    if k = 0 then []
    else (x :: xs).take k :: chunksOf k ((x :: xs).drop k)
termination_by l => l.length
decreasing_by
  rename_i hk
  simp only [List.length_drop, List.length_cons]
  omega

/-- The y-distance between consecutive rows, `card_h_pt + gap_pt`. -/
def rowStride (c : Config) : ℚ := mmToPoints c.card_height_mm + mmToPoints c.gap_mm

/-- The x-distance between consecutive columns, `card_w_pt + gap_pt`. -/
def colStride (c : Config) : ℚ := mmToPoints c.card_width_mm + mmToPoints c.gap_mm

/-- Modelled from the spec: the number of row positions on a page, i.e. the
number of `k` with `firstRowY - k * rowStride ≥ 0` (rows are filled top to
bottom and a page break happens exactly when a row's `y` would fall below
zero). -/
def rowsPerPage (c : Config) : Nat := (⌊firstRowY c / rowStride c⌋ + 1).toNat

/-- Modelled from the spec: cards held by one full page. -/
def pageCapacity (c : Config) : Nat := rowsPerPage c * c.cards_per_row.toNat

/-- Modelled from the spec: the placement of the `j`-th card (0-indexed) in
row-major page-reading order — column `j mod cards_per_row` at
`x = col * (card_w + gap)`, row `(j mod pageCapacity) / cards_per_row`
at `y = firstRowY - row * rowStride`. -/
def specPlacement (c : Config) (j : Nat) : Nat × ℚ × ℚ :=
  (j,
   ((j % c.cards_per_row.toNat : Nat) : ℚ) * colStride c,
   firstRowY c -
     (((j % pageCapacity c) / c.cards_per_row.toNat : Nat) : ℚ) * rowStride c)

/-- Modelled from the spec: the whole paginated document in row-major
order — the card indices `0 … n-1` grouped into pages of `pageCapacity`
cards, each placed by `specPlacement`; zero cards give one empty page. -/
def specLayout (c : Config) (n : Nat) : List (List (Nat × ℚ × ℚ)) :=
  if n = 0 then [[]]
  else (chunksOf (pageCapacity c) (List.range n)).map (List.map (specPlacement c))

/-! ## Claim C1: EAN-13 normalization -/

instance {ε α : Type _} [DecidableEq ε] [DecidableEq α] : DecidableEq (Except ε α) := fun x y =>
  match x, y with
  | .ok a, .ok b => decidable_of_iff (a = b) (by simp)
  | .error e, .error f => decidable_of_iff (e = f) (by simp)
  | .ok _, .error _ => isFalse fun h => Except.noConfusion h
  | .error _, .ok _ => isFalse fun h => Except.noConfusion h

lemma filter_all_self (p : Nat → Bool) (l : List Nat) : (l.filter p).all p = true :=
  List.all_eq_true.mpr fun _ hx => (List.mem_filter.mp hx).2

lemma computeEan13CheckDigit_ok {d : List Nat} (h12 : d.length = 12)
    (hall : d.all isDigitCode = true) :
    computeEan13CheckDigit d = .ok (48 + checkDigitVal (d.map (· - 48))) := by
  simp [computeEan13CheckDigit, h12, hall]

lemma take12_all_digits (v : List Nat) :
    (((pyStrip v).filter isDigitCode).take 12).all isDigitCode = true :=
  List.all_eq_true.mpr fun _ hx =>
    (List.mem_filter.mp (List.mem_of_mem_take hx)).2

/-- **C1.** For every textual input to `normalize_barcode` whose
digit-stripped form `d` has exactly 12 digits, the result is the 13-digit
string `d` with the EAN-13 weighted-modulo-10 check digit appended; a
13-digit `d` whose last digit equals the check digit recomputed over the
first 12 is returned unchanged; a 13-digit `d` with a differing last digit
fails naming the expected check digit; and every other digit count fails
naming the observed digit count. -/
theorem normalizeBarcode_ean13_contract (v : List Nat) (row : Nat) :
    (((pyStrip v).filter isDigitCode).length = 12 →
      normalizeBarcode (some v) row =
        .ok ((pyStrip v).filter isDigitCode ++
          [48 + checkDigitVal (((pyStrip v).filter isDigitCode).map (· - 48))]) ∧
      ((pyStrip v).filter isDigitCode ++
          [48 + checkDigitVal (((pyStrip v).filter isDigitCode).map (· - 48))]).length
        = 13) ∧
    (((pyStrip v).filter isDigitCode).length = 13 →
      ((pyStrip v).filter isDigitCode).getLastD 0 =
          48 + checkDigitVal ((((pyStrip v).filter isDigitCode).take 12).map (· - 48)) →
      normalizeBarcode (some v) row = .ok ((pyStrip v).filter isDigitCode)) ∧
    (((pyStrip v).filter isDigitCode).length = 13 →
      ((pyStrip v).filter isDigitCode).getLastD 0 ≠
          48 + checkDigitVal ((((pyStrip v).filter isDigitCode).take 12).map (· - 48)) →
      normalizeBarcode (some v) row =
        .error (.badCheckDigit row
          (48 + checkDigitVal ((((pyStrip v).filter isDigitCode).take 12).map (· - 48))))) ∧
    (((pyStrip v).filter isDigitCode).length ≠ 12 →
      ((pyStrip v).filter isDigitCode).length ≠ 13 →
      normalizeBarcode (some v) row =
        .error (.badDigitCount row (((pyStrip v).filter isDigitCode).length))) := by
  set d : List Nat := (pyStrip v).filter isDigitCode with hd
  have hall : d.all isDigitCode = true := filter_all_self _ _
  refine ⟨fun h12 => ?_, fun h13 heq => ?_, fun h13 hne => ?_, fun h12 h13 => ?_⟩
  · have hcd := computeEan13CheckDigit_ok h12 hall
    refine ⟨?_, by simp [h12]⟩
    simp only [normalizeBarcode, ← hd]
    rw [if_pos h12, hcd]
  · have ht : (d.take 12).length = 12 := by
      simp [List.length_take, h13]
    have hcd := computeEan13CheckDigit_ok ht (hd ▸ take12_all_digits v)
    simp only [normalizeBarcode, ← hd]
    rw [if_neg (by omega), if_pos h13]
    simp only [hcd]
    rw [if_neg (fun hc => hc heq.symm)]
  · have ht : (d.take 12).length = 12 := by
      simp [List.length_take, h13]
    have hcd := computeEan13CheckDigit_ok ht (hd ▸ take12_all_digits v)
    simp only [normalizeBarcode, ← hd]
    rw [if_neg (by omega), if_pos h13]
    simp only [hcd]
    rw [if_pos (fun hc => hne hc.symm)]
  · simp only [normalizeBarcode, ← hd]
    rw [if_neg h12, if_neg h13]

/-- Witness for C1 at the spec's own example: the 12-digit input
`"400638133393"` is completed to `"4006381333931"`. -/
theorem normalizeBarcode_ean13_contract_witness :
    normalizeBarcode (some (strLit "400638133393")) 2 =
      .ok (strLit "4006381333931") := by
  have h := (normalizeBarcode_ean13_contract (strLit "400638133393") 2).1 (by decide)
  exact h.1.trans (by decide)

/-! ## Claim C4: name normalizer examples -/

/-- **C4.** `parse_fio` maps `"иванов иван иванович"` to `"ИВАНОВ И.И."`,
the pre-abbreviated `"petrov a."` to `"PETROV A."`, and the surname-only
`"сидоров"` to `"СИДОРОВ"`. -/
theorem parseFio_examples :
    parseFio (some (strLit "иванов иван иванович")) = .ok (strLit "ИВАНОВ И.И.") ∧
    parseFio (some (strLit "petrov a.")) = .ok (strLit "PETROV A.") ∧
    parseFio (some (strLit "сидоров")) = .ok (strLit "СИДОРОВ") := by
  refine ⟨by decide, by decide, by decide⟩

/-! ## Claim C5: `barcode_height_scale_percent = 150` -/

/-- **C5.** The claim (and the `Config` dataclass's own doc comment, which
offers 120 as a legitimate value) says a configuration with
`barcode_height_scale_percent = 150` succeeds; but `validate_config` runs
`ensure_percent` on that field and raises a hard `(0..100]` range error for
150, with no other violation present.  This evaluates the code at the
failing input. -/
theorem validateConfig_percent150_raises :
    validateConfig { barcode_height_scale_percent := 150 } =
      .error [.percentOutOfRange "barcode_height_scale_percent" 150] := by
  with_unfolding_all rfl

/-! ## Claim C6: validation aggregates all violations -/

lemma mem_ite_singleton {α : Type _} {c : Prop} [Decidable c] {a b : α} :
    (a ∈ if c then [b] else []) ↔ c ∧ a = b := by
  split <;> simp_all

/-- **C6.** `validate_config` evaluates every invariant check before
raising: it succeeds exactly when no hard violation exists (warnings never
block, and the orientation-normalized configuration is returned), and when
it raises, the raised error is the full aggregated violation list — each
individual invariant (including the last-checked `cards_per_row ≥ 1`) is
present in it exactly when that invariant is violated, independently of the
other checks. -/
theorem validateConfig_aggregates (c : Config) :
    ((validateConfig c).isOk = true ↔ configErrors c = []) ∧
    (configErrors c = [] → validateConfig c = .ok (applyValidation c)) ∧
    (∀ es, validateConfig c = .error es →
      es = configErrors c ∧ es ≠ [] ∧
      (CfgError.cardsPerRowTooSmall ∈ es ↔ c.cards_per_row < 1) ∧
      (CfgError.notPositive "card_width_mm" c.card_width_mm ∈ es ↔
        c.card_width_mm ≤ 0) ∧
      (CfgError.notPositive "card_height_mm" c.card_height_mm ∈ es ↔
        c.card_height_mm ≤ 0) ∧
      (CfgError.notPositive "card_border_thickness_mm" c.card_border_thickness_mm ∈ es ↔
        c.card_border_thickness_mm < 0) ∧
      (CfgError.notPositive "font_size_pt" c.font_size_pt ∈ es ↔
        c.font_size_pt ≤ 0) ∧
      (CfgError.notPositive "text_top_offset_mm" c.text_top_offset_mm ∈ es ↔
        c.text_top_offset_mm < 0) ∧
      (CfgError.notPositive "gap_mm" c.gap_mm ∈ es ↔ c.gap_mm < 0) ∧
      (CfgError.notPositive "top_margin_mm" c.top_margin_mm ∈ es ↔
        c.top_margin_mm < 0) ∧
      (CfgError.notPositive "barcode_width_mm" c.barcode_width_mm ∈ es ↔
        c.barcode_width_mm ≤ 0) ∧
      (CfgError.percentOutOfRange "barcode_height_scale_percent"
          c.barcode_height_scale_percent ∈ es ↔
        (c.barcode_height_scale_percent ≤ 0 ∨ 100 < c.barcode_height_scale_percent)) ∧
      (CfgError.notPositive "barcode_right_offset_mm" c.barcode_right_offset_mm ∈ es ↔
        c.barcode_right_offset_mm < 0) ∧
      (∀ p, c.barcode_top_offset_percent = some p →
        (CfgError.percentOutOfRange "barcode_top_offset_percent" p ∈ es ↔
          (p ≤ 0 ∨ 100 < p)))) := by
  refine ⟨?_, fun he => ?_, fun es hes => ?_⟩
  · unfold validateConfig
    split <;> simp_all [Except.isOk, Except.toBool]
  · simp [validateConfig, he]
  · have hne : ¬ configErrors c = [] := by
      intro h
      rw [validateConfig, if_pos h] at hes
      exact Except.noConfusion hes
    have hes' : es = configErrors c := by
      rw [validateConfig, if_neg hne] at hes
      exact (Except.error.injEq _ _).mp hes.symm
    subst hes'
    refine ⟨rfl, hne, ?_, ?_, ?_, ?_, ?_, ?_, ?_, ?_, ?_, ?_, ?_, fun p hp => ?_⟩ <;>
    · simp only [configErrors, ensurePositive, ensurePercent, List.mem_append,
        mem_ite_singleton, Bool.not_true, Bool.not_false, Bool.false_and,
        Bool.true_and, Bool.and_eq_true, Bool.or_eq_true, decide_eq_true_eq,
        Bool.false_or, Bool.or_false]
      try rw [hp]
      split <;>
        simp_all [CfgError.notPositive.injEq, CfgError.percentOutOfRange.injEq]

/-- Witness for C6: a configuration violating both the first-checked
(`card_width_mm > 0`) and the last-checked (`cards_per_row ≥ 1`) invariant
raises a single error containing both violations. -/
theorem validateConfig_aggregates_witness :
    ∃ es, validateConfig { cards_per_row := 0, card_width_mm := -1 } = .error es ∧
      CfgError.cardsPerRowTooSmall ∈ es ∧
      CfgError.notPositive "card_width_mm" (-1) ∈ es := by
  have h := (validateConfig_aggregates { cards_per_row := 0, card_width_mm := -1 }).2.2
    (configErrors { cards_per_row := 0, card_width_mm := -1 })
    (by with_unfolding_all rfl)
  exact ⟨configErrors { cards_per_row := 0, card_width_mm := -1 },
    by with_unfolding_all rfl,
    h.2.2.1.mpr (by decide), h.2.2.2.1.mpr (by decide)⟩

/-! ## Claim C10: `text_orientation` never causes a failure -/

/-- **C10.** Configuration validation never raises because of
`text_orientation`: the hard-violation list is unchanged by replacing the
field with anything; after validation the orientation is always exactly
`"horizontal"` or `"vertical"`; a recognized value (case-insensitively) is
kept, normalized to lowercase; and any other value — `None` included — is
replaced by `"horizontal"` with only a warning. -/
theorem validateConfig_orientation_total (c : Config) :
    (∀ o, configErrors { c with text_orientation := o } = configErrors c) ∧
    ((applyValidation c).text_orientation = some (strLit "horizontal") ∨
      (applyValidation c).text_orientation = some (strLit "vertical")) ∧
    (∀ s, c.text_orientation = some s →
      (s.map lowCode = strLit "horizontal" ∨ s.map lowCode = strLit "vertical") →
      (applyValidation c).text_orientation = some (s.map lowCode)) ∧
    ((c.text_orientation.getD []).map lowCode ≠ strLit "horizontal" →
      (c.text_orientation.getD []).map lowCode ≠ strLit "vertical" →
      (applyValidation c).text_orientation = some (strLit "horizontal") ∧
      CfgWarning.unknownOrientation c.text_orientation ∈ configWarnings c) := by
  refine ⟨fun o => rfl, ?_, fun s hs hrec => ?_, fun h1 h2 => ⟨?_, ?_⟩⟩
  · simp only [applyValidation, orientationResult]
    split
    · rename_i h
      rcases h with h | h <;> simp [h]
    · simp
  · simp only [applyValidation, orientationResult, hs, Option.getD_some]
    rw [if_pos hrec]
  · simp only [applyValidation, orientationResult]
    rw [if_neg (by tauto)]
  · simp only [configWarnings, orientationResult]
    rw [if_neg (by tauto)]
    simp

/-- Witness for C10: the uppercase value `"VERTICAL"` is accepted and
normalized to lowercase `"vertical"`. -/
theorem validateConfig_orientation_total_witness :
    (applyValidation { text_orientation := some (strLit "VERTICAL") }).text_orientation
      = some (strLit "vertical") := by
  have h := (validateConfig_orientation_total
    { text_orientation := some (strLit "VERTICAL") }).2.2.1
    (strLit "VERTICAL") rfl (by decide)
  exact h.trans (by decide)

/-! ## Claim C3: barcode image scaling -/

/-- **C3 counterexample.** The claim's height formula
`round(natural_height * target_width_px / natural_width *
height_scale_percent / 100)` (floored at 1) disagrees with the code for
small positive scale percentages: the code first clamps the percentage
below at `1e-3`.  At `height_scale_percent = 1/2000 = 0.0005` — a value
`validate_config` accepts — a natural 1×2 image stretched to width 100000
gets height 2 from the code but height 1 from the claim's formula. -/
theorem makeBarcodeImage_height_counterexample :
    makeBarcodeImage 1 2 100000 (1 / 2000) = .ok (100000, 2) ∧
    specBarcodeHeight 1 2 100000 (1 / 2000) = 1 ∧
    makeBarcodeImage 1 2 100000 (1 / 2000) ≠
      .ok (100000, specBarcodeHeight 1 2 100000 (1 / 2000)) :=
  ⟨by with_unfolding_all rfl, by with_unfolding_all rfl,
    of_decide_eq_false (by with_unfolding_all rfl)⟩

/-- **C3 (amended).** For every natural image size (width positive), every
`target_width_px > 0` and every `height_scale_percent`, the barcode image
builder returns width exactly `target_width_px` and height
`round(natural_height * target_width_px / natural_width *
max(height_scale_percent, 0.001) / 100)` floored at 1 pixel — i.e. the
claim's formula with the scale percentage clamped below at `1e-3`; and it
fails exactly when `target_width_px ≤ 0`. -/
theorem makeBarcodeImage_scaling (naturalW naturalH : Nat) (tw : Int) (hsp : ℚ)
    (_hw : 0 < naturalW) :
    (0 < tw → makeBarcodeImage naturalW naturalH tw hsp =
      .ok (tw, max 1 (pyRound ((naturalH : ℚ) * (tw : ℚ) / (naturalW : ℚ) *
        max hsp (1 / 1000) / 100)))) ∧
    (tw ≤ 0 → makeBarcodeImage naturalW naturalH tw hsp =
      .error "Ширина штрихкода должна быть положительной") := by
  constructor
  · intro ht
    simp only [makeBarcodeImage]
    rw [if_neg (by omega)]
    have harith : (naturalH : ℚ) * ((tw : ℚ) / (naturalW : ℚ)) *
        (max hsp (1 / 1000) / 100)
        = (naturalH : ℚ) * (tw : ℚ) / (naturalW : ℚ) * max hsp (1 / 1000) / 100 := by
      ring
    rw [harith]
  · intro ht
    simp only [makeBarcodeImage]
    rw [if_pos ht]

/-- Witness for C3 (amended) at a typical EAN-13 raster (523×280) scaled
to the default 26 mm target width. -/
theorem makeBarcodeImage_scaling_witness :
    makeBarcodeImage 523 280 307 100 = .ok (307, 164) := by
  have h := (makeBarcodeImage_scaling 523 280 307 100 (by decide)).1 (by decide)
  exact h.trans (by with_unfolding_all rfl)

/-! ## Claim C9: border stroke is never zero pixels -/

lemma drawCard_error_shape (c : Config) (textW textH : Int) (nw nh : Nat) (e : String)
    (hmk : makeBarcodeImage nw nh (mmToPx c.barcode_width_mm)
      c.barcode_height_scale_percent = .error e) :
    drawCard c textW textH nw nh = .error e := by
  unfold drawCard
  rw [hmk]

lemma drawCard_ok_shape (c : Config) (textW textH : Int) (nw nh : Nat) (bw bh : Int)
    (hmk : makeBarcodeImage nw nh (mmToPx c.barcode_width_mm)
      c.barcode_height_scale_percent = .ok (bw, bh)) :
    drawCard c textW textH nw nh = .ok
      { cardW := mmToPx c.card_width_mm, cardH := mmToPx c.card_height_mm,
        borderPx := max 1 (mmToPx c.card_border_thickness_mm),
        textX := max (Int.fdiv (mmToPx c.card_width_mm - textW) 2)
          (max 1 (mmToPx c.card_border_thickness_mm)),
        textY := mmToPx c.text_top_offset_mm, textW := textW, textH := textH,
        barcodeW := bw, barcodeH := bh,
        barcodeX := max (max 1 (mmToPx c.card_border_thickness_mm))
          (mmToPx c.card_width_mm - mmToPx c.barcode_right_offset_mm - bw),
        barcodeY := max (max 1 (mmToPx c.card_border_thickness_mm))
          (match c.barcode_top_offset_percent with
           | none => max (Int.fdiv (mmToPx c.card_height_mm - bh) 2)
               (mmToPx c.text_top_offset_mm + textH + 2)
           | some p => pyTruncate ((mmToPx c.card_height_mm : ℚ) * (p / 100))) } := by
  unfold drawCard
  rw [hmk]

/-- **C9.** `validate_config` explicitly permits
`card_border_thickness_mm = 0`, yet `draw_card` always draws the border
with a stroke width of at least one pixel (`border_px = max(1, …)`). -/
theorem drawCard_border_at_least_one_px :
    (∃ r, validateConfig { card_border_thickness_mm := 0 } = .ok r) ∧
    ∀ (c : Config) (textW textH : Int) (nw nh : Nat) (layout : CardLayout),
      drawCard c textW textH nw nh = .ok layout → 1 ≤ layout.borderPx := by
  constructor
  · refine ⟨applyValidation { card_border_thickness_mm := 0 }, ?_⟩
    unfold validateConfig
    rw [if_pos (by with_unfolding_all rfl)]
  · intro c textW textH nw nh layout h
    cases hmk : makeBarcodeImage nw nh (mmToPx c.barcode_width_mm)
        c.barcode_height_scale_percent with
    | error e =>
      rw [drawCard_error_shape c textW textH nw nh e hmk] at h
      exact absurd h (by simp)
    | ok p =>
      obtain ⟨bw, bh⟩ := p
      rw [drawCard_ok_shape c textW textH nw nh bw bh hmk] at h
      simp only [Except.ok.injEq] at h
      subst h
      exact le_max_left _ _

/-- Witness for C9: the default configuration's rendered geometry has a
2-pixel border, in particular at least one pixel. -/
theorem drawCard_border_at_least_one_px_witness :
    1 ≤ ({ cardW := 413, cardH := 177, borderPx := 2, textX := 106, textY := 24,
           textW := 200, textH := 30, barcodeW := 307, barcodeH := 164,
           barcodeX := 35, barcodeY := 56 } : CardLayout).borderPx := by
  have hc : drawCard {} 200 30 523 280 =
      .ok { cardW := 413, cardH := 177, borderPx := 2, textX := 106, textY := 24,
            textW := 200, textH := 30, barcodeW := 307, barcodeH := 164,
            barcodeX := 35, barcodeY := 56 } := by with_unfolding_all rfl
  exact drawCard_border_at_least_one_px.2 {} 200 30 523 280 _ hc

/-! ## Claim C7: barcode placement inside the card -/

/-- **C7.** In `draw_card`, the barcode's horizontal position is
`card width − right offset − barcode width` floored at the border
thickness; its vertical position is the configured top-offset percentage
of the card height when that option is set, and otherwise the vertical
centring position but never above the text bottom plus the fixed 2-pixel
gap — in both cases floored at the border thickness. -/
theorem drawCard_barcode_position (c : Config) (textW textH : Int) (nw nh : Nat)
    (layout : CardLayout) (h : drawCard c textW textH nw nh = .ok layout) :
    layout.barcodeX = max (max 1 (mmToPx c.card_border_thickness_mm))
      (mmToPx c.card_width_mm - mmToPx c.barcode_right_offset_mm - layout.barcodeW) ∧
    (∀ p, c.barcode_top_offset_percent = some p →
      layout.barcodeY = max (max 1 (mmToPx c.card_border_thickness_mm))
        (pyTruncate ((mmToPx c.card_height_mm : ℚ) * (p / 100)))) ∧
    (c.barcode_top_offset_percent = none →
      layout.barcodeY = max (max 1 (mmToPx c.card_border_thickness_mm))
        (max (Int.fdiv (mmToPx c.card_height_mm - layout.barcodeH) 2)
          (mmToPx c.text_top_offset_mm + textH + 2))) := by
  cases hmk : makeBarcodeImage nw nh (mmToPx c.barcode_width_mm)
      c.barcode_height_scale_percent with
  | error e =>
    rw [drawCard_error_shape c textW textH nw nh e hmk] at h
    exact absurd h (by simp)
  | ok p =>
    obtain ⟨bw, bh⟩ := p
    rw [drawCard_ok_shape c textW textH nw nh bw bh hmk] at h
    simp only [Except.ok.injEq] at h
    subst h
    refine ⟨rfl, fun p hp => ?_, fun hp => ?_⟩ <;> simp [hp]

/-- Witness for C7 on the default configuration (no explicit top offset):
the barcode `x` equals the right-aligned position floored at the border. -/
theorem drawCard_barcode_position_witness :
    ({ cardW := 413, cardH := 177, borderPx := 2, textX := 106, textY := 24,
       textW := 200, textH := 30, barcodeW := 307, barcodeH := 164,
       barcodeX := 35, barcodeY := 56 } : CardLayout).barcodeX =
      max (max 1 (mmToPx ({} : Config).card_border_thickness_mm))
        (mmToPx ({} : Config).card_width_mm -
          mmToPx ({} : Config).barcode_right_offset_mm -
          ({ cardW := 413, cardH := 177, borderPx := 2, textX := 106, textY := 24,
             textW := 200, textH := 30, barcodeW := 307, barcodeH := 164,
             barcodeX := 35, barcodeY := 56 } : CardLayout).barcodeW) := by
  have hc : drawCard {} 200 30 523 280 =
      .ok { cardW := 413, cardH := 177, borderPx := 2, textX := 106, textY := 24,
            textW := 200, textH := 30, barcodeW := 307, barcodeH := 164,
            barcodeX := 35, barcodeY := 56 } := by with_unfolding_all rfl
  exact (drawCard_barcode_position {} 200 30 523 280 _ hc).1

/-! ## Claim C2: row-major pagination of the sheet packer -/

lemma chunksOf_nil (k : Nat) : chunksOf k ([] : List α) = [] := by
  simp [chunksOf]

lemma chunksOf_eq (k : Nat) (l : List α) (hk : k ≠ 0) (hl : l ≠ []) :
    chunksOf k l = l.take k :: chunksOf k (l.drop k) := by
  obtain ⟨x, xs, rfl⟩ := List.exists_cons_of_ne_nil hl
  rw [chunksOf]
  rw [if_neg hk]

lemma range'_take (a k m : Nat) (h : k ≤ m) :
    (List.range' a m).take k = List.range' a k := by
  have happ : List.range' a k ++ List.range' (a + k) (m - k) = List.range' a m := by
    have h1 := List.range'_append a k (m - k) 1
    simpa [Nat.one_mul, Nat.sub_add_cancel h] using h1
  calc (List.range' a m).take k
      = (List.range' a k ++ List.range' (a + k) (m - k)).take k := by rw [happ]
    _ = (List.range' a k ++ List.range' (a + k) (m - k)).take
          (List.range' a k).length := by rw [List.length_range']
    _ = List.range' a k := List.take_left _ _

lemma range'_drop (a k m : Nat) (h : k ≤ m) :
    (List.range' a m).drop k = List.range' (a + k) (m - k) := by
  have happ : List.range' a k ++ List.range' (a + k) (m - k) = List.range' a m := by
    have h1 := List.range'_append a k (m - k) 1
    simpa [Nat.one_mul, Nat.sub_add_cancel h] using h1
  calc (List.range' a m).drop k
      = (List.range' a k ++ List.range' (a + k) (m - k)).drop k := by rw [happ]
    _ = (List.range' a k ++ List.range' (a + k) (m - k)).drop
          (List.range' a k).length := by rw [List.length_range']
    _ = List.range' (a + k) (m - k) := List.drop_left _ _

lemma chunksOf_range' (k : Nat) (hk : 0 < k) :
    ∀ m, 0 < m → ∀ a, chunksOf k (List.range' a m) =
      (List.range ((m - 1) / k)).map (fun i => List.range' (a + i * k) k) ++
        [List.range' (a + ((m - 1) / k) * k) (m - ((m - 1) / k) * k)] := by
  intro m
  induction m using Nat.strong_induction_on with
  | _ m ih =>
    intro hm a
    have hne : List.range' a m ≠ [] := by
      simp only [ne_eq, List.range'_eq_nil]
      omega
    by_cases hmk : m ≤ k
    · rw [chunksOf_eq _ _ (by omega) hne,
        List.take_of_length_le (by simp [List.length_range']; omega),
        List.drop_eq_nil_of_le (by simp [List.length_range']; omega), chunksOf_nil]
      have hp : (m - 1) / k = 0 := Nat.div_eq_of_lt (by omega)
      simp [hp]
    · push_neg at hmk
      rw [chunksOf_eq _ _ (by omega) hne, range'_take a k m (by omega),
        range'_drop a k m (by omega)]
      rw [ih (m - k) (by omega) (by omega) (a + k)]
      have hp : (m - 1) / k = (m - k - 1) / k + 1 := by
        rw [show m - 1 = (m - k - 1) + k by omega, Nat.add_div_right _ hk]
      rw [hp, List.range_succ_eq_map, List.map_cons, List.map_map]
      simp only [Nat.zero_mul, Nat.add_zero, List.cons_append]
      have hmul : ((m - k - 1) / k + 1) * k = (m - k - 1) / k * k + k := by ring
      have hle : (m - k - 1) / k * k ≤ m - k - 1 := Nat.div_mul_le_self _ _
      have hA : List.map (fun i => List.range' (a + k + i * k) k)
            (List.range ((m - k - 1) / k)) =
          List.map ((fun i => List.range' (a + i * k) k) ∘ Nat.succ)
            (List.range ((m - k - 1) / k)) := by
        apply List.map_congr_left
        intro i _
        simp only [Function.comp_apply, Nat.succ_eq_add_one]
        congr 1
        ring
      have hB : List.range' (a + k + (m - k - 1) / k * k) (m - k - (m - k - 1) / k * k) =
          List.range' (a + ((m - k - 1) / k + 1) * k) (m - ((m - k - 1) / k + 1) * k) := by
        congr 1
        · omega
        · omega
      rw [hA, hB]

lemma chunksOf_flatten_aux (k : Nat) (hk : k ≠ 0) :
    ∀ (n : Nat) (l : List α), l.length ≤ n → (chunksOf k l).flatten = l := by
  intro n
  induction n with
  | zero =>
    intro l h
    have : l = [] := List.eq_nil_of_length_eq_zero (by omega)
    subst this
    simp [chunksOf_nil]
  | succ n ih =>
    intro l h
    by_cases hl : l = []
    · subst hl
      simp [chunksOf_nil]
    · rw [chunksOf_eq k l hk hl, List.flatten_cons,
        ih (l.drop k) (by simp only [List.length_drop]; omega)]
      exact List.take_append_drop k l

lemma chunksOf_flatten (k : Nat) (hk : k ≠ 0) (l : List α) :
    (chunksOf k l).flatten = l :=
  chunksOf_flatten_aux k hk l.length l le_rfl

lemma pageDecomp_mod {R C p k r : Nat} (hC : 0 < C) (hk : k < R) (hr : r < C) :
    (p * (R * C) + k * C + r) % C = r ∧
    (p * (R * C) + k * C + r) % (R * C) = k * C + r ∧
    (p * (R * C) + k * C + r) / (R * C) = p := by
  have hRC : 0 < R * C := Nat.mul_pos (by omega) hC
  have hlt : k * C + r < R * C := by
    have h1 : (k + 1) * C ≤ R * C := Nat.mul_le_mul_right C (by omega)
    have h2 : (k + 1) * C = k * C + C := by ring
    omega
  refine ⟨?_, ?_, ?_⟩
  · have he : p * (R * C) + k * C + r = C * (p * R + k) + r := by ring
    rw [he, Nat.mul_add_mod]
    exact Nat.mod_eq_of_lt hr
  · have he : p * (R * C) + k * C + r = (R * C) * p + (k * C + r) := by ring
    rw [he, Nat.mul_add_mod]
    exact Nat.mod_eq_of_lt hlt
  · have he : p * (R * C) + k * C + r = (R * C) * p + (k * C + r) := by ring
    rw [he, Nat.mul_add_div hRC, Nat.div_eq_of_lt hlt, Nat.add_zero]

lemma specPlacement_decomp (c : Config) {p k r : Nat}
    (hk : k < rowsPerPage c) (hr : r < c.cards_per_row.toNat) :
    specPlacement c (p * pageCapacity c + k * c.cards_per_row.toNat + r) =
      (p * pageCapacity c + k * c.cards_per_row.toNat + r,
       (r : ℚ) * colStride c,
       firstRowY c - (k : ℚ) * rowStride c) := by
  have hC : 0 < c.cards_per_row.toNat := by omega
  obtain ⟨h1, h2, _⟩ :=
    pageDecomp_mod (R := rowsPerPage c) (p := p) hC hk hr
  unfold specPlacement pageCapacity
  rw [h1, h2]
  have h3 : (k * c.cards_per_row.toNat + r) / c.cards_per_row.toNat = k := by
    rw [show k * c.cards_per_row.toNat + r = c.cards_per_row.toNat * k + r by ring,
      Nat.mul_add_div hC, Nat.div_eq_of_lt hr, Nat.add_zero]
  rw [h3]

lemma rowsPerPage_pos (c : Config) (hs : 0 < rowStride c) (hy0 : 0 ≤ firstRowY c) :
    0 < rowsPerPage c := by
  unfold rowsPerPage
  have h0 : 0 ≤ ⌊firstRowY c / rowStride c⌋ :=
    Int.floor_nonneg.mpr (div_nonneg hy0 hs.le)
  omega

lemma row_y_nonneg (c : Config) (hs : 0 < rowStride c) (hy0 : 0 ≤ firstRowY c)
    {k : Nat} (hk : k < rowsPerPage c) :
    0 ≤ firstRowY c - (k : ℚ) * rowStride c := by
  unfold rowsPerPage at hk
  have h0 : 0 ≤ ⌊firstRowY c / rowStride c⌋ :=
    Int.floor_nonneg.mpr (div_nonneg hy0 hs.le)
  have hk' : (k : ℤ) ≤ ⌊firstRowY c / rowStride c⌋ := by omega
  have hle : ((k : ℤ) : ℚ) ≤ firstRowY c / rowStride c := Int.le_floor.mp hk'
  rw [le_div_iff₀ hs] at hle
  push_cast at hle
  linarith

lemma row_y_neg (c : Config) (hs : 0 < rowStride c) (hy0 : 0 ≤ firstRowY c) :
    firstRowY c - (rowsPerPage c : ℚ) * rowStride c < 0 := by
  have h0 : 0 ≤ ⌊firstRowY c / rowStride c⌋ :=
    Int.floor_nonneg.mpr (div_nonneg hy0 hs.le)
  have hcast : ((rowsPerPage c : Nat) : ℤ) = ⌊firstRowY c / rowStride c⌋ + 1 := by
    unfold rowsPerPage
    rw [Int.toNat_of_nonneg (by omega)]
  have hlt : firstRowY c / rowStride c < ((⌊firstRowY c / rowStride c⌋ : ℚ) + 1) :=
    Int.lt_floor_add_one _
  rw [div_lt_iff₀ hs] at hlt
  have hconv : ((rowsPerPage c : Nat) : ℚ) = (⌊firstRowY c / rowStride c⌋ : ℚ) + 1 := by
    have := congrArg (fun z : ℤ => (z : ℚ)) hcast
    push_cast at this
    exact this
  rw [hconv]
  linarith

lemma layoutStep_eval (cpr : Int) (cw ch gap y0 : ℚ) (col : Int) (x y : ℚ)
    (cur : List (Nat × ℚ × ℚ)) (pgs : List (List (Nat × ℚ × ℚ))) (i : Nat) :
    layoutStep cpr cw ch gap y0 ⟨col, x, y, cur, pgs⟩ i =
      if cpr ≤ col then
        (if y - (ch + gap) < 0 then
          ⟨1, 0 + (cw + gap), y0, [(i, 0, y0)], pgs ++ [cur]⟩
        else ⟨1, 0 + (cw + gap), y - (ch + gap),
          cur ++ [(i, 0, y - (ch + gap))], pgs⟩)
      else
        (if y < 0 then
          ⟨1, 0 + (cw + gap), y0, [(i, 0, y0)], pgs ++ [cur]⟩
        else ⟨col + 1, x + (cw + gap), y, cur ++ [(i, x, y)], pgs⟩) := by
  by_cases h1 : cpr ≤ col
  · by_cases h2 : y - (ch + gap) < 0
    · simp [layoutStep, h1, h2]
    · simp [layoutStep, h1, h2]
  · by_cases h2 : y < 0
    · simp [layoutStep, h1, h2]
    · simp [layoutStep, h1, h2]
/-- The loop invariant of `layout_cards_on_a4`: after laying out cards
`0 … j-1` (j ≥ 1), the last card `j-1` decomposes as page `p`, row `k`,
column `r`, and the loop state holds exactly the row-major placements —
the full pages laid out so far and the current page's placements — with the
pen one column past card `j-1`. -/
lemma layout_fold_invariant (c : Config)
    (hcpr : 1 ≤ c.cards_per_row) (hs : 0 < rowStride c) (hy0 : 0 ≤ firstRowY c) :
    ∀ j : Nat, j ≠ 0 →
    ∃ p k r : Nat, k < rowsPerPage c ∧ r < c.cards_per_row.toNat ∧
      j - 1 = p * pageCapacity c + k * c.cards_per_row.toNat + r ∧
      (List.range j).foldl
        (layoutStep c.cards_per_row (mmToPoints c.card_width_mm)
          (mmToPoints c.card_height_mm) (mmToPoints c.gap_mm) (firstRowY c))
        ⟨0, 0, firstRowY c, [], []⟩ =
        { col := (r : Int) + 1,
          x := ((r : ℚ) + 1) * colStride c,
          y := firstRowY c - (k : ℚ) * rowStride c,
          current := (List.range' (p * pageCapacity c)
            (k * c.cards_per_row.toNat + r + 1)).map (specPlacement c),
          pages := (List.range p).map
            (fun q => (List.range' (q * pageCapacity c) (pageCapacity c)).map
              (specPlacement c)) } := by
  have hC : 0 < c.cards_per_row.toNat := by omega
  have hCint : ((c.cards_per_row.toNat : Nat) : Int) = c.cards_per_row :=
    Int.toNat_of_nonneg (by omega)
  have hR : 0 < rowsPerPage c := rowsPerPage_pos c hs hy0
  have hrs : mmToPoints c.card_height_mm + mmToPoints c.gap_mm = rowStride c := rfl
  have hcs : mmToPoints c.card_width_mm + mmToPoints c.gap_mm = colStride c := rfl
  intro j
  induction j with
  | zero => intro h; exact absurd rfl h
  | succ j ih =>
    intro _
    rcases Nat.eq_zero_or_pos j with hj0 | hjpos
    · subst hj0
      rw [List.range_succ, List.range_zero, List.nil_append, List.foldl_cons,
        List.foldl_nil, layoutStep_eval, if_neg (by omega),
        if_neg (not_lt.mpr hy0)]
      refine ⟨0, 0, 0, hR, hC, by omega, ?_⟩
      have hpl := specPlacement_decomp c (p := 0) (k := 0) (r := 0) hR hC
      simp only [Nat.zero_mul, Nat.add_zero, Nat.mul_zero] at hpl
      rw [LayoutState.mk.injEq]
      refine ⟨by simp, ?_, ?_, ?_, by simp⟩
      · rw [hcs]
        push_cast
        ring
      · push_cast
        ring
      · rw [show (0 : Nat) * c.cards_per_row.toNat + 0 + 1 = 1 by omega,
          show (0 : Nat) * pageCapacity c = 0 by omega, List.range'_one,
          List.map_cons, List.map_nil, hpl]
        push_cast
        simp
    · obtain ⟨p, k, r, hk, hr, hdec, hstate⟩ := ih (by omega)
      rw [List.range_succ, List.foldl_append, List.foldl_cons, List.foldl_nil,
        hstate, layoutStep_eval]
      by_cases hreq : r + 1 = c.cards_per_row.toNat
      · rw [if_pos (by omega)]
        have hmulk : (k + 1) * c.cards_per_row.toNat =
            k * c.cards_per_row.toNat + c.cards_per_row.toNat := by ring
        by_cases hkR : k + 1 = rowsPerPage c
        · -- full page completed: page break, card `j` opens page `p+1`
          rw [if_pos (by
            have hneg := row_y_neg c hs hy0
            have hc1 : ((k : ℚ) + 1) = (rowsPerPage c : ℚ) := by
              rw [show ((k : ℚ) + 1) = ((k + 1 : Nat) : ℚ) by push_cast; ring, hkR]
            rw [hrs]
            nlinarith [hneg, hc1])]
          have hfull : k * c.cards_per_row.toNat + r + 1 = pageCapacity c := by
            have h2 : (k + 1) * c.cards_per_row.toNat =
                rowsPerPage c * c.cards_per_row.toNat := by rw [hkR]
            have h3 : pageCapacity c = rowsPerPage c * c.cards_per_row.toNat := rfl
            omega
          have hj : j = (p + 1) * pageCapacity c := by
            have h1 : (p + 1) * pageCapacity c =
                p * pageCapacity c + pageCapacity c := by ring
            omega
          refine ⟨p + 1, 0, 0, hR, hC, by omega, ?_⟩
          have hpl := specPlacement_decomp c (p := p + 1) (k := 0) (r := 0) hR hC
          simp only [Nat.zero_mul, Nat.add_zero] at hpl
          rw [LayoutState.mk.injEq]
          refine ⟨by simp, ?_, ?_, ?_, ?_⟩
          · rw [hcs]
            push_cast
            ring
          · push_cast
            ring
          · rw [show (0 : Nat) * c.cards_per_row.toNat + 0 + 1 = 1 by omega,
              List.range'_one, List.map_cons, List.map_nil, hpl, ← hj]
            push_cast
            simp
          · rw [List.range_succ, List.map_append, List.map_singleton, hfull]
        · -- advance to the next row on the same page
          rw [if_neg (by
            have hnn := row_y_nonneg c hs hy0 (k := k + 1) (by omega)
            have hc1 : ((k + 1 : Nat) : ℚ) = (k : ℚ) + 1 := by push_cast; ring
            rw [hc1] at hnn
            rw [hrs]
            push_neg
            linarith)]
          have hj : j = p * pageCapacity c + (k + 1) * c.cards_per_row.toNat := by
            omega
          refine ⟨p, k + 1, 0, by omega, hC, by omega, ?_⟩
          have hpl := specPlacement_decomp c (p := p) (k := k + 1) (r := 0)
            (by omega) hC
          simp only [Nat.add_zero] at hpl
          have hcur : (List.range' (p * pageCapacity c)
                ((k + 1) * c.cards_per_row.toNat + 0 + 1)).map (specPlacement c) =
              (List.range' (p * pageCapacity c)
                (k * c.cards_per_row.toNat + r + 1)).map (specPlacement c) ++
              [specPlacement c
                (p * pageCapacity c + (k + 1) * c.cards_per_row.toNat)] := by
            rw [show (k + 1) * c.cards_per_row.toNat + 0 + 1 =
                (k * c.cards_per_row.toNat + r + 1) + 1 by omega,
              List.range'_concat, List.map_append, List.map_singleton,
              show p * pageCapacity c + 1 * (k * c.cards_per_row.toNat + r + 1) =
                p * pageCapacity c + (k + 1) * c.cards_per_row.toNat by omega]
          rw [LayoutState.mk.injEq]
          refine ⟨by simp, ?_, ?_, ?_, rfl⟩
          · rw [hcs]
            push_cast
            ring
          · rw [hrs]
            push_cast
            ring
          · rw [hcur, hpl, ← hj, hrs,
              show ((0 : Nat) : ℚ) * colStride c = (0 : ℚ) by push_cast; ring,
              show firstRowY c - ((k + 1 : Nat) : ℚ) * rowStride c
                = firstRowY c - (k : ℚ) * rowStride c - rowStride c by
                  push_cast; ring]
      · -- place card `j` in the same row
        rw [if_neg (by omega), if_neg (not_lt.mpr (row_y_nonneg c hs hy0 hk))]
        refine ⟨p, k, r + 1, hk, by omega, by omega, ?_⟩
        have hpl := specPlacement_decomp c (p := p) (k := k) (r := r + 1) hk
          (by omega)
        have hcur : (List.range' (p * pageCapacity c)
              (k * c.cards_per_row.toNat + (r + 1) + 1)).map (specPlacement c) =
            (List.range' (p * pageCapacity c)
              (k * c.cards_per_row.toNat + r + 1)).map (specPlacement c) ++
            [specPlacement c
              (p * pageCapacity c + k * c.cards_per_row.toNat + (r + 1))] := by
          rw [show k * c.cards_per_row.toNat + (r + 1) + 1 =
              (k * c.cards_per_row.toNat + r + 1) + 1 by omega,
            List.range'_concat, List.map_append, List.map_singleton,
            show p * pageCapacity c + 1 * (k * c.cards_per_row.toNat + r + 1) =
              p * pageCapacity c + k * c.cards_per_row.toNat + (r + 1) by omega]
        rw [LayoutState.mk.injEq]
        refine ⟨by push_cast; ring, ?_, rfl, ?_, rfl⟩
        · rw [hcs]
          push_cast
          ring
        · rw [hcur, hpl,
            show p * pageCapacity c + k * c.cards_per_row.toNat + (r + 1) = j by omega,
            show ((r + 1 : Nat) : ℚ) = (r : ℚ) + 1 by push_cast; ring]

lemma mem_configErrors_cardHeight (c : Config) :
    CfgError.notPositive "card_height_mm" c.card_height_mm ∈ configErrors c ↔
      c.card_height_mm ≤ 0 := by
  simp only [configErrors, ensurePositive, ensurePercent, List.mem_append,
    mem_ite_singleton, Bool.not_true, Bool.not_false, Bool.false_and,
    Bool.true_and, Bool.and_eq_true, Bool.or_eq_true, decide_eq_true_eq,
    Bool.false_or, Bool.or_false]
  split <;>
    simp_all [CfgError.notPositive.injEq, CfgError.percentOutOfRange.injEq]

lemma mem_configErrors_gap (c : Config) :
    CfgError.notPositive "gap_mm" c.gap_mm ∈ configErrors c ↔ c.gap_mm < 0 := by
  simp only [configErrors, ensurePositive, ensurePercent, List.mem_append,
    mem_ite_singleton, Bool.not_true, Bool.not_false, Bool.false_and,
    Bool.true_and, Bool.and_eq_true, Bool.or_eq_true, decide_eq_true_eq,
    Bool.false_or, Bool.or_false]
  split <;>
    simp_all [CfgError.notPositive.injEq, CfgError.percentOutOfRange.injEq]

lemma mem_configErrors_cardsPerRow (c : Config) :
    CfgError.cardsPerRowTooSmall ∈ configErrors c ↔ c.cards_per_row < 1 := by
  simp only [configErrors, ensurePositive, ensurePercent, List.mem_append,
    mem_ite_singleton, Bool.not_true, Bool.not_false, Bool.false_and,
    Bool.true_and, Bool.and_eq_true, Bool.or_eq_true, decide_eq_true_eq,
    Bool.false_or, Bool.or_false]
  split <;>
    simp_all [CfgError.notPositive.injEq, CfgError.percentOutOfRange.injEq]

lemma configErrors_nil_facts {c : Config} (he : configErrors c = []) :
    0 < c.card_height_mm ∧ 0 ≤ c.gap_mm ∧ 1 ≤ c.cards_per_row := by
  refine ⟨?_, ?_, ?_⟩
  · by_contra h
    push_neg at h
    have hmem := (mem_configErrors_cardHeight c).mpr h
    rw [he] at hmem
    exact absurd hmem (List.not_mem_nil _)
  · by_contra h
    push_neg at h
    have hmem := (mem_configErrors_gap c).mpr h
    rw [he] at hmem
    exact absurd hmem (List.not_mem_nil _)
  · by_contra h
    push_neg at h
    have hmem := (mem_configErrors_cardsPerRow c).mpr h
    rw [he] at hmem
    exact absurd hmem (List.not_mem_nil _)

lemma mmToPoints_pos {m : ℚ} (h : 0 < m) : 0 < mmToPoints m := by
  unfold mmToPoints MM_IN_INCH PT_IN_INCH
  positivity

lemma mmToPoints_nonneg {m : ℚ} (h : 0 ≤ m) : 0 ≤ mmToPoints m := by
  unfold mmToPoints MM_IN_INCH PT_IN_INCH
  positivity

set_option maxHeartbeats 1000000 in
/-- **C2 (amended).** For every configuration accepted by validation whose
first-row position `page_height − top_margin − card_height` is nonnegative
(the card and top margin fit on the page), `layout_cards_on_a4` is exactly
the row-major paginator the claim describes: cards fill rows left to right
starting at `x = 0`, rows fill top to bottom from the first-row position
stepping by `card_height + gap`, a page holds exactly the rows whose `y`
stays nonnegative, every new page restarts at the full first-row position,
the trailing partial page is kept, and no card is skipped or reordered
(the flattened page-reading order is exactly the input order). -/
theorem layoutCardsOnA4_rowMajor (c cfg' : Config) (n : Nat)
    (hvalid : validateConfig c = .ok cfg') (hfit : 0 ≤ firstRowY c) :
    layoutCardsOnA4 c n = specLayout c n ∧
    (layoutCardsOnA4 c n).flatten.map Prod.fst = List.range n := by
  have he : configErrors c = [] := by
    by_contra hne
    rw [validateConfig, if_neg hne] at hvalid
    exact Except.noConfusion hvalid
  obtain ⟨hch, hgap, hcpr⟩ := configErrors_nil_facts he
  have hs : 0 < rowStride c := by
    unfold rowStride
    have h1 := mmToPoints_pos hch
    have h2 := mmToPoints_nonneg hgap
    linarith
  have hC : 0 < c.cards_per_row.toNat := by omega
  have hR : 0 < rowsPerPage c := rowsPerPage_pos c hs hfit
  have hRC : 0 < pageCapacity c := Nat.mul_pos hR hC
  have hmain : layoutCardsOnA4 c n = specLayout c n := by
    rcases Nat.eq_zero_or_pos n with hn0 | hnpos
    · subst hn0
      rfl
    · obtain ⟨p, k, r, hk, hr, hdec, hstate⟩ :=
        layout_fold_invariant c hcpr hs hfit n (by omega)
      have hpages := congrArg LayoutState.pages hstate
      have hcurrent := congrArg LayoutState.current hstate
      simp only at hpages hcurrent
      have hstart : layoutCardsOnA4 c n =
          ((List.range n).foldl
            (layoutStep c.cards_per_row (mmToPoints c.card_width_mm)
              (mmToPoints c.card_height_mm) (mmToPoints c.gap_mm) (firstRowY c))
            ⟨0, 0, firstRowY c, [], []⟩).pages ++
          [((List.range n).foldl
            (layoutStep c.cards_per_row (mmToPoints c.card_width_mm)
              (mmToPoints c.card_height_mm) (mmToPoints c.gap_mm) (firstRowY c))
            ⟨0, 0, firstRowY c, [], []⟩).current] := rfl
      rw [hstart, hpages, hcurrent]
      unfold specLayout
      rw [if_neg (by omega), List.range_eq_range' n,
        chunksOf_range' (pageCapacity c) hRC n hnpos 0]
      have hp : (n - 1) / pageCapacity c = p := by
        rw [hdec]
        exact (pageDecomp_mod (R := rowsPerPage c) (p := p) hC hk hr).2.2
      have hlen : n - p * pageCapacity c = k * c.cards_per_row.toNat + r + 1 := by
        omega
      rw [hp, List.map_append, List.map_map, List.map_singleton]
      congr 1
      · apply List.map_congr_left
        intro i _
        simp
      · rw [Nat.zero_add, hlen]
  refine ⟨hmain, ?_⟩
  rw [hmain]
  rcases Nat.eq_zero_or_pos n with hn0 | hnpos
  · subst hn0
    rfl
  · unfold specLayout
    rw [if_neg (by omega), ← List.map_flatten, chunksOf_flatten _ (by omega),
      List.map_map, show (Prod.fst ∘ specPlacement c) = id from funext fun _ => rfl,
      List.map_id]

/-- **C2 counterexample.** The claim quantifies over *every* configuration
accepted by validation, but validation does not bound the card height.
With `card_height_mm = 300` (and `cards_per_row = 2`) the first-row
position is negative; the code's per-card `y < 0` test then emits a leading
empty page and splits the two cards of the very first row across two
separate pages — a page break in the middle of a row, contradicting the
claim's "checked per row, not per card" discipline and its row-major page
layout — even though `validate_config` accepts this configuration. -/
theorem layoutCardsOnA4_counterexample :
    (validateConfig { card_height_mm := 300, cards_per_row := 2 }).isOk = true ∧
    (layoutCardsOnA4 { card_height_mm := 300, cards_per_row := 2 } 2).map
        (List.map Prod.fst) = [[], [0], [1]] ∧
    layoutCardsOnA4 { card_height_mm := 300, cards_per_row := 2 } 2 ≠
      specLayout { card_height_mm := 300, cards_per_row := 2 } 2 :=
  ⟨by with_unfolding_all rfl, by with_unfolding_all rfl,
    of_decide_eq_false (by with_unfolding_all rfl)⟩

/-- Witness for C2 (amended): the default configuration lays out 7 cards in
row-major order on one page (5 in the first row, 2 in the second). -/
theorem layoutCardsOnA4_rowMajor_witness :
    layoutCardsOnA4 {} 7 = specLayout {} 7 := by
  have hvalid : validateConfig {} = .ok (applyValidation {}) := by
    unfold validateConfig
    rw [if_pos (by with_unfolding_all rfl)]
  exact (layoutCardsOnA4_rowMajor {} (applyValidation {}) 7 hvalid
    (of_decide_eq_true (by with_unfolding_all rfl))).1

/-! ## Claim C8: idempotence of the name normalizer -/

lemma upCode_upCode (n : Nat) : upCode (upCode n) = upCode n := by
  unfold upCode
  split_ifs <;> omega

lemma upCode_ne_yo (n : Nat) : upCode n ≠ 1105 := by
  unfold upCode
  split_ifs <;> omega

lemma replaceYo_upCode (n : Nat) : replaceYo (upCode n) = upCode n := by
  unfold replaceYo
  rw [if_neg (upCode_ne_yo n)]

lemma isFioCode_upCode {n : Nat} (h : isFioCode n = true) :
    isFioCode (upCode n) = true := by
  unfold isFioCode at h ⊢
  simp only [decide_eq_true_eq] at h ⊢
  unfold upCode
  split_ifs <;> omega

lemma isFioCode_replaceYo {n : Nat} (h : isFioCode n = true) :
    isFioCode (replaceYo n) = true := by
  unfold isFioCode at h ⊢
  simp only [decide_eq_true_eq] at h ⊢
  unfold replaceYo
  split_ifs <;> omega

lemma isFioCode_not_space {n : Nat} (h : isFioCode n = true) :
    isSpaceCode n = false := by
  unfold isFioCode at h
  unfold isSpaceCode
  simp only [decide_eq_true_eq] at h
  simp only [decide_eq_false_iff_not]
  omega

lemma map_upCode_map_upCode (l : List Nat) :
    (l.map upCode).map upCode = l.map upCode := by
  rw [List.map_map]
  exact List.map_congr_left fun a _ => upCode_upCode a

lemma map_replaceYo_map_upCode (l : List Nat) :
    (l.map upCode).map replaceYo = l.map upCode := by
  rw [List.map_map]
  exact List.map_congr_left fun a _ => replaceYo_upCode a

lemma runsOf_cons_neg {p : Nat → Bool} {c : Nat} (h : p c = false) (l : List Nat) :
    runsOf p (c :: l) = runsOf p l := by
  simp [runsOf, h]

lemma runsOf_ne_nil {p : Nat → Bool} {c : Nat} (h : p c = true) (l : List Nat) :
    runsOf p (c :: l) ≠ [] := by
  cases l with
  | nil => simp [runsOf, h]
  | cons d l' => by_cases hd : p d = true <;> simp [runsOf, h, hd]

lemma runsOf_word {p : Nat → Bool} :
    ∀ w : List Nat, w ≠ [] → (∀ c ∈ w, p c = true) →
    ∀ l : List Nat, (∀ d, l.head? = some d → p d = false) →
    runsOf p (w ++ l) = w :: runsOf p l := by
  intro w
  induction w with
  | nil => intro h; exact absurd rfl h
  | cons a w' ih =>
    intro _ hall l hl
    have ha : p a = true := hall a (by simp)
    cases w' with
    | nil =>
      simp only [List.cons_append, List.nil_append]
      cases l with
      | nil => simp [runsOf, ha]
      | cons d l' =>
        have hd : p d = false := hl d rfl
        simp [runsOf, ha, hd]
    | cons b w'' =>
      have hb : p b = true := hall b (by simp)
      have hih := ih (by simp) (fun c hc => hall c (by simp [hc])) l hl
      rw [List.cons_append] at hih
      simp only [List.cons_append]
      rw [show runsOf p (a :: (b :: (w'' ++ l))) =
          (a :: (runsOf p (b :: (w'' ++ l))).headD []) ::
            (runsOf p (b :: (w'' ++ l))).tail from by simp [runsOf, ha, hb]]
      rw [hih]
      simp

lemma runsOf_mem {p : Nat → Bool} :
    ∀ (l t : List Nat), t ∈ runsOf p l → t ≠ [] ∧ ∀ c ∈ t, p c = true := by
  intro l
  induction l with
  | nil => intro t ht; simp [runsOf] at ht
  | cons c rest ih =>
    intro t ht
    by_cases hc : p c = true
    · cases rest with
      | nil =>
        simp [runsOf, hc] at ht
        subst ht
        refine ⟨by simp, ?_⟩
        intro x hx
        rcases List.mem_cons.mp hx with h1 | h1
        · subst h1; exact hc
        · simp at h1
      | cons d rest' =>
        by_cases hd : p d = true
        · obtain ⟨t0, ts, hts⟩ := List.exists_cons_of_ne_nil (runsOf_ne_nil hd rest')
          rw [show runsOf p (c :: d :: rest') =
              (c :: (runsOf p (d :: rest')).headD []) ::
                (runsOf p (d :: rest')).tail from by simp [runsOf, hc, hd]] at ht
          rw [hts] at ht
          simp only [List.headD_cons, List.tail_cons] at ht
          rcases List.mem_cons.mp ht with h1 | h1
          · subst h1
            have ht0 := ih t0 (by rw [hts]; simp)
            refine ⟨by simp, ?_⟩
            intro x hx
            rcases List.mem_cons.mp hx with h2 | h2
            · subst h2; exact hc
            · exact ht0.2 x h2
          · exact ih t (by rw [hts]; exact List.mem_cons_of_mem _ h1)
        · rw [show runsOf p (c :: d :: rest') = [c] :: runsOf p (d :: rest') from by
            simp [runsOf, hc, hd]] at ht
          rcases List.mem_cons.mp ht with h1 | h1
          · subst h1
            refine ⟨by simp, ?_⟩
            intro x hx
            rcases List.mem_cons.mp hx with h2 | h2
            · subst h2; exact hc
            · simp at h2
          · exact ih t h1
    · have hc' : p c = false := by revert hc; cases p c <;> simp
      rw [runsOf_cons_neg hc'] at ht
      exact ih t ht

lemma joinWith_cons (sep : Nat) (w x : List Nat) (ws : List (List Nat)) :
    joinWith sep (w :: x :: ws) = w ++ sep :: joinWith sep (x :: ws) := rfl

lemma joinWith_ne_nil (sep : Nat) (ws : List (List Nat)) (h0 : ws ≠ [])
    (hws : ∀ w ∈ ws, w ≠ []) : joinWith sep ws ≠ [] := by
  cases ws with
  | nil => exact absurd rfl h0
  | cons w ws' =>
    cases ws' with
    | nil => exact hws w (by simp)
    | cons x ws'' =>
      rw [joinWith_cons]
      have hw := hws w (by simp)
      simp [List.append_eq_nil, hw]

lemma runsOf_joinWith {p : Nat → Bool} {sep : Nat} (hsep : p sep = false) :
    ∀ ws : List (List Nat), (∀ w ∈ ws, w ≠ [] ∧ ∀ c ∈ w, p c = true) →
    runsOf p (joinWith sep ws) = ws := by
  intro ws
  induction ws with
  | nil => intro _; simp [joinWith, runsOf]
  | cons w ws' ih =>
    intro hws
    cases ws' with
    | nil =>
      have hw := hws w (by simp)
      have h := runsOf_word w hw.1 hw.2 [] (by simp)
      simpa using h
    | cons x ws'' =>
      rw [joinWith_cons,
        runsOf_word w (hws w (by simp)).1 (hws w (by simp)).2
          (sep :: joinWith sep (x :: ws''))
          (by intro d hd; simp only [List.head?_cons, Option.some.injEq] at hd;
              subst hd; exact hsep),
        runsOf_cons_neg hsep, ih (fun u hu => hws u (by simp [hu]))]

lemma mem_of_head? {α : Type _} {l : List α} {d : α} (h : l.head? = some d) :
    d ∈ l := by
  cases l with
  | nil => simp at h
  | cons a l' =>
    simp only [List.head?_cons, Option.some.injEq] at h
    subst h
    simp

lemma mem_of_getLast? {α : Type _} {l : List α} {d : α} (h : l.getLast? = some d) :
    d ∈ l := by
  induction l with
  | nil => simp at h
  | cons a l' ih =>
    cases l' with
    | nil =>
      simp only [List.getLast?_singleton, Option.some.injEq] at h
      subst h
      simp
    | cons b l'' =>
      rw [List.getLast?_cons_cons] at h
      exact List.mem_cons_of_mem _ (ih h)

lemma getLast?_cons_isSome {α : Type _} (a : α) (l : List α) :
    ∃ e, (a :: l).getLast? = some e := by
  induction l generalizing a with
  | nil => exact ⟨a, rfl⟩
  | cons b l' ih => rw [List.getLast?_cons_cons]; exact ih b

lemma joinWith_head?_mem {w : List Nat} {ws : List (List Nat)} (hw : w ≠ [])
    {d : Nat} (h : (joinWith 32 (w :: ws)).head? = some d) : d ∈ w := by
  cases ws with
  | nil => exact mem_of_head? h
  | cons x ws' =>
    rw [joinWith_cons, List.head?_append] at h
    obtain ⟨a, w', rfl⟩ := List.exists_cons_of_ne_nil hw
    simp only [List.head?_cons] at h
    rw [show ((some a).or (some (32 : Nat))) = some a from rfl] at h
    simp only [Option.some.injEq] at h
    subst h
    simp

lemma joinWith_getLast?_mem :
    ∀ ws : List (List Nat), ws ≠ [] → (∀ w ∈ ws, w ≠ []) →
    ∀ d, (joinWith 32 ws).getLast? = some d → ∃ w ∈ ws, d ∈ w := by
  intro ws
  induction ws with
  | nil => intro h; exact absurd rfl h
  | cons w ws' ih =>
    intro _ hws d hd
    cases ws' with
    | nil => exact ⟨w, by simp, mem_of_getLast? hd⟩
    | cons x ws'' =>
      rw [joinWith_cons, List.getLast?_append] at hd
      have hJne : joinWith 32 (x :: ws'') ≠ [] :=
        joinWith_ne_nil _ _ (by simp) (fun u hu => hws u (by simp [hu]))
      obtain ⟨a, J', hJ⟩ := List.exists_cons_of_ne_nil hJne
      rw [hJ, List.getLast?_cons_cons] at hd
      obtain ⟨e, he⟩ := getLast?_cons_isSome a J'
      rw [he] at hd
      rw [show ((some e).or ((w : List Nat).getLast?)) = some e from rfl] at hd
      simp only [Option.some.injEq] at hd
      subst hd
      have hmem := ih (by simp) (fun u hu => hws u (by simp [hu])) e
        (by rw [hJ]; exact he)
      obtain ⟨u, hu1, hu2⟩ := hmem
      exact ⟨u, by simp [hu1], hu2⟩

lemma mem_joinWith {sep : Nat} :
    ∀ (ws : List (List Nat)) (c : Nat), c ∈ joinWith sep ws →
      c = sep ∨ ∃ w ∈ ws, c ∈ w := by
  intro ws
  induction ws with
  | nil => intro c hc; simp [joinWith] at hc
  | cons w ws' ih =>
    intro c hc
    cases ws' with
    | nil => exact Or.inr ⟨w, by simp, hc⟩
    | cons x ws'' =>
      rw [joinWith_cons] at hc
      rcases List.mem_append.mp hc with h | h
      · exact Or.inr ⟨w, by simp, h⟩
      · rcases List.mem_cons.mp h with h | h
        · exact Or.inl h
        · rcases ih c h with h | ⟨u, hu1, hu2⟩
          · exact Or.inl h
          · exact Or.inr ⟨u, by simp [hu1], hu2⟩

lemma dropWhile_eq_self_of_head {α : Type _} {p : α → Bool} {l : List α}
    (h : ∀ d, l.head? = some d → p d = false) : l.dropWhile p = l := by
  cases l with
  | nil => rfl
  | cons a l' => rw [List.dropWhile_cons, if_neg (by simp [h a rfl])]

lemma pyStrip_eq_self {l : List Nat}
    (h1 : ∀ d, l.head? = some d → isSpaceCode d = false)
    (h2 : ∀ d, l.getLast? = some d → isSpaceCode d = false) :
    pyStrip l = l := by
  unfold pyStrip
  rw [dropWhile_eq_self_of_head h1,
    dropWhile_eq_self_of_head (by
      intro d hd
      rw [List.head?_reverse] at hd
      exact h2 d hd)]
  exact List.reverse_reverse l

lemma pyStrip_joinWith (ws : List (List Nat)) (h0 : ws ≠ [])
    (hws : ∀ w ∈ ws, w ≠ [] ∧ ∀ c ∈ w, isFioCode c = true) :
    pyStrip (joinWith 32 ws) = joinWith 32 ws := by
  apply pyStrip_eq_self
  · intro d hd
    obtain ⟨w, ws', rfl⟩ := List.exists_cons_of_ne_nil h0
    have hmem := joinWith_head?_mem (hws w (by simp)).1 hd
    exact isFioCode_not_space ((hws w (by simp)).2 d hmem)
  · intro d hd
    obtain ⟨w, hw1, hw2⟩ := joinWith_getLast?_mem ws h0 (fun u hu => (hws u hu).1) d hd
    exact isFioCode_not_space ((hws w hw1).2 d hw2)

lemma headD_mem {α : Type _} {l : List α} (h : l ≠ []) (d : α) : l.headD d ∈ l := by
  cases l with
  | nil => exact absurd rfl h
  | cons a l' => simp

lemma not_space_of_fio {c : Nat} (h : isFioCode c = true) :
    (fun c => !isSpaceCode c) c = true := by
  simp [isFioCode_not_space h]

lemma splitWs_word (sur : List Nat) (hne : sur ≠ [])
    (hclass : ∀ c ∈ sur, isFioCode c = true) :
    runsOf (fun c => !isSpaceCode c) sur = [sur] := by
  have h := @runsOf_joinWith (fun c => !isSpaceCode c) 32 rfl [sur]
    (by
      intro w hw
      simp only [List.mem_singleton] at hw
      subst hw
      exact ⟨hne, fun c hc => not_space_of_fio (hclass c hc)⟩)
  simpa [joinWith] using h

lemma splitWs_words (ws : List (List Nat))
    (hws : ∀ w ∈ ws, w ≠ [] ∧ ∀ c ∈ w, isFioCode c = true) :
    runsOf (fun c => !isSpaceCode c) (joinWith 32 ws) = ws :=
  runsOf_joinWith rfl ws
    (fun w hw => ⟨(hws w hw).1, fun c hc => not_space_of_fio ((hws w hw).2 c hc)⟩)

lemma fioTokens_words (ws : List (List Nat))
    (hws : ∀ w ∈ ws, w ≠ [] ∧ ∀ c ∈ w, isFioCode c = true) :
    runsOf isFioCode (joinWith 32 ws) = ws :=
  runsOf_joinWith rfl ws hws

/-- A canonical surname-only output is a fixed point of `parse_fio`. -/
lemma parseFio_canon_single (sur : List Nat) (hne : sur ≠ [])
    (hclass : ∀ c ∈ sur, isFioCode c = true)
    (hfix : (sur.map replaceYo).map upCode = sur) :
    parseFio (some sur) = .ok sur := by
  have hsplit := splitWs_word sur hne hclass
  have htok : runsOf isFioCode sur = [sur] := by
    have h := fioTokens_words [sur] (by
      intro w hw
      simp only [List.mem_singleton] at hw
      subst hw
      exact ⟨hne, hclass⟩)
    simpa [joinWith] using h
  simp only [parseFio, hsplit, joinWith]
  rw [if_neg hne, htok]
  simp only [List.any_nil, Bool.false_eq_true, if_false, List.filter_nil,
    List.isEmpty_nil, if_true]
  rw [hfix]

/-- A canonical `SURNAME initials…` output (some remaining token containing
a period) is a fixed point of `parse_fio`. -/
lemma parseFio_canon_multi (sur : List Nat) (others : List (List Nat))
    (hsne : sur ≠ []) (hsclass : ∀ c ∈ sur, isFioCode c = true)
    (hsfix : (sur.map replaceYo).map upCode = sur)
    (hoc : ∀ t ∈ others, t ≠ [] ∧ ∀ c ∈ t, isFioCode c = true)
    (hofix : ∀ t ∈ others, t.map upCode = t)
    (hdot : others.any (fun t => t.contains 46) = true) :
    parseFio (some (joinWith 32 (sur :: others))) =
      .ok (joinWith 32 (sur :: others)) := by
  obtain ⟨o1, os, rfl⟩ : ∃ o1 os, others = o1 :: os := by
    cases others with
    | nil => simp at hdot
    | cons o1 os => exact ⟨o1, os, rfl⟩
  have hall : ∀ w ∈ sur :: o1 :: os, w ≠ [] ∧ ∀ c ∈ w, isFioCode c = true := by
    intro w hw
    rcases List.mem_cons.mp hw with h | h
    · subst h; exact ⟨hsne, hsclass⟩
    · exact hoc w h
  have hsplit := splitWs_words (sur :: o1 :: os) hall
  have htok := fioTokens_words (sur :: o1 :: os) hall
  have hcne : joinWith 32 (sur :: o1 :: os) ≠ [] :=
    joinWith_ne_nil _ _ (by simp) (fun u hu => (hall u hu).1)
  have hmapo : (o1 :: os).map (List.map upCode) = o1 :: os := by
    rw [List.map_congr_left (fun t ht => by rw [hofix t ht])]
    exact List.map_id _
  simp only [parseFio, hsplit]
  rw [if_neg hcne, htok]
  simp only [hdot, if_true]
  rw [hsfix, hmapo, ← joinWith_cons, pyStrip_joinWith _ (by simp) hall]

lemma contains_iff_mem {l : List Nat} {a : Nat} : l.contains a = true ↔ a ∈ l :=
  List.elem_iff

/-- **C8.** Name normalization is idempotent: whenever `parse_fio` accepts
a raw name and produces `out`, applying `parse_fio` to `out` succeeds and
returns `out` unchanged — the surname is unaltered and no punctuation is
added or duplicated by the second application. -/
theorem parseFio_idempotent (raw out : List Nat)
    (h : parseFio (some raw) = .ok out) :
    parseFio (some out) = .ok out := by
  simp only [parseFio] at h
  split at h
  · exact absurd h (by simp)
  · split at h
    · exact absurd h (by simp)
    · rename_i t0 rest htok
      have ht0 := runsOf_mem _ t0 (by rw [htok]; simp)
      have hrest : ∀ t ∈ rest, t ≠ [] ∧ ∀ c ∈ t, isFioCode c = true :=
        fun t ht => runsOf_mem _ t (by rw [htok]; exact List.mem_cons_of_mem _ ht)
      have hsne : (t0.map replaceYo).map upCode ≠ [] := by
        simp [List.map_eq_nil_iff, ht0.1]
      have hsclass : ∀ c ∈ (t0.map replaceYo).map upCode, isFioCode c = true := by
        intro c hc
        obtain ⟨b, hb, rfl⟩ := List.mem_map.mp hc
        obtain ⟨a, ha, rfl⟩ := List.mem_map.mp hb
        exact isFioCode_upCode (isFioCode_replaceYo (ht0.2 a ha))
      have hsfix : ((((t0.map replaceYo).map upCode).map replaceYo).map upCode)
          = (t0.map replaceYo).map upCode := by
        rw [map_replaceYo_map_upCode, map_upCode_map_upCode]
      split at h
      · -- pre-abbreviated initials: some remaining token contains a period
        rename_i hany
        simp only [Except.ok.injEq] at h
        subst h
        obtain ⟨t1, rest', rfl⟩ : ∃ t1 rest', rest = t1 :: rest' := by
          rcases List.any_eq_true.mp hany with ⟨t, ht, _⟩
          cases rest with
          | nil => simp at ht
          | cons a b => exact ⟨a, b, rfl⟩
        have hoc : ∀ t ∈ (t1 :: rest').map (List.map upCode),
            t ≠ [] ∧ ∀ c ∈ t, isFioCode c = true := by
          intro t ht
          obtain ⟨u, hu, rfl⟩ := List.mem_map.mp ht
          refine ⟨by simp [List.map_eq_nil_iff, (hrest u hu).1], ?_⟩
          intro c hc
          obtain ⟨a, ha, rfl⟩ := List.mem_map.mp hc
          exact isFioCode_upCode ((hrest u hu).2 a ha)
        have hofix : ∀ t ∈ (t1 :: rest').map (List.map upCode),
            t.map upCode = t := by
          intro t ht
          obtain ⟨u, hu, rfl⟩ := List.mem_map.mp ht
          exact map_upCode_map_upCode u
        have hdot' : ((t1 :: rest').map (List.map upCode)).any
            (fun t => t.contains 46) = true := by
          rcases List.any_eq_true.mp hany with ⟨t, ht, hct⟩
          refine List.any_eq_true.mpr ⟨t.map upCode, List.mem_map.mpr ⟨t, ht, rfl⟩, ?_⟩
          have h46 : (46 : Nat) ∈ t := contains_iff_mem.mp hct
          exact contains_iff_mem.mpr (List.mem_map.mpr ⟨46, h46, by decide⟩)
        have hallws : ∀ w ∈ (t0.map replaceYo).map upCode ::
            (t1 :: rest').map (List.map upCode),
            w ≠ [] ∧ ∀ c ∈ w, isFioCode c = true := by
          intro w hw
          rcases List.mem_cons.mp hw with hw | hw
          · subst hw; exact ⟨hsne, hsclass⟩
          · exact hoc w hw
        have hjoin : (t0.map replaceYo).map upCode ++ 32 ::
            joinWith 32 ((t1 :: rest').map (List.map upCode))
            = joinWith 32 ((t0.map replaceYo).map upCode ::
                (t1 :: rest').map (List.map upCode)) := by
          simp only [List.map_cons]
          exact (joinWith_cons 32 _ _ _).symm
        rw [hjoin, pyStrip_joinWith _ (by simp) hallws]
        exact parseFio_canon_multi _ _ hsne hsclass hsfix hoc hofix hdot'
      · split at h
        · -- surname only
          simp only [Except.ok.injEq] at h
          subst h
          exact parseFio_canon_single _ hsne hsclass hsfix
        · -- initials built from the first letters of up to two tokens
          rename_i hany hparts
          simp only [Except.ok.injEq] at h
          subst h
          set parts := rest.filter (fun t => !(stripChars [46, 45] t).isEmpty)
            with hpartsdef
          set ini := joinWith 46 ((parts.take 2).map
            (fun q : List Nat => [upCode (q.headD 0)])) ++ [46] with hinidef
          have hini_ne : ini ≠ [] := by rw [hinidef]; simp
          have hq_facts : ∀ q ∈ parts, q ≠ [] ∧ ∀ c ∈ q, isFioCode c = true := by
            intro q hq
            rw [hpartsdef] at hq
            exact hrest q (List.mem_filter.mp hq).1
          have hini_class : ∀ c ∈ ini, isFioCode c = true := by
            intro c hc
            rw [hinidef] at hc
            rcases List.mem_append.mp hc with hc | hc
            · rcases mem_joinWith _ c hc with rfl | ⟨w, hw, hcw⟩
              · decide
              · obtain ⟨q, hq, rfl⟩ := List.mem_map.mp hw
                simp only [List.mem_singleton] at hcw
                subst hcw
                have hqf := hq_facts q (List.mem_of_mem_take hq)
                exact isFioCode_upCode (hqf.2 _ (headD_mem hqf.1 0))
            · simp only [List.mem_singleton] at hc
              subst hc
              decide
          have hini_fix : ini.map upCode = ini := by
            rw [List.map_congr_left ?pw, List.map_id]
            case pw =>
              intro c hc
              show upCode c = c
              rw [hinidef] at hc
              rcases List.mem_append.mp hc with hc | hc
              · rcases mem_joinWith _ c hc with rfl | ⟨w, hw, hcw⟩
                · decide
                · obtain ⟨q, hq, rfl⟩ := List.mem_map.mp hw
                  simp only [List.mem_singleton] at hcw
                  subst hcw
                  exact upCode_upCode _
              · simp only [List.mem_singleton] at hc
                subst hc
                decide
          have hini_dot : ([ini] : List (List Nat)).any
              (fun t => t.contains 46) = true := by
            refine List.any_eq_true.mpr ⟨ini, by simp, contains_iff_mem.mpr ?_⟩
            rw [hinidef]
            exact List.mem_append.mpr (Or.inr (by simp))
          have hallws : ∀ w ∈ ((t0.map replaceYo).map upCode :: [ini]),
              w ≠ [] ∧ ∀ c ∈ w, isFioCode c = true := by
            intro w hw
            rcases List.mem_cons.mp hw with hw | hw
            · subst hw; exact ⟨hsne, hsclass⟩
            · simp only [List.mem_singleton] at hw
              subst hw
              exact ⟨hini_ne, hini_class⟩
          have hjoin : (t0.map replaceYo).map upCode ++ 32 :: ini
              = joinWith 32 ((t0.map replaceYo).map upCode :: [ini]) :=
            (joinWith_cons 32 _ ini []).symm
          rw [hjoin, pyStrip_joinWith _ (by simp) hallws]
          exact parseFio_canon_multi _ _ hsne hsclass hsfix
            (fun t ht => by
              simp only [List.mem_singleton] at ht
              subst ht
              exact ⟨hini_ne, hini_class⟩)
            (fun t ht => by
              simp only [List.mem_singleton] at ht
              subst ht
              exact hini_fix)
            hini_dot


/-- Witness for C8: the canonical output `"ИВАНОВ И.И."` of the first
spec example is a fixed point of `parse_fio`. -/
theorem parseFio_idempotent_witness :
    parseFio (some (strLit "ИВАНОВ И.И.")) = .ok (strLit "ИВАНОВ И.И.") :=
  parseFio_idempotent (strLit "иванов иван иванович") (strLit "ИВАНОВ И.И.")
    (by decide)

end Cards
